import Mathlib

/-!
# StudyMate: verification of the Document Indexing & Retrieval core

Shallow embedding of the StudyMate repository's core modules:
* `src/pdf_processor.py`  — text preprocessing and chunking,
* `src/semantic_search.py` — per-document vector search, context windows,
  and the document store,
* `src/llm_integration.py` — source attachment for generated answers,
* `src/qa_system.py`       — question-answering orchestration and session
  state.

Text is modelled as `List Char` (Python `str`), similarity scores as `ℚ`
(the selection / filtering logic under scrutiny never depends on float
rounding), machine-external collaborators (the embedding model, the
answer generator, the clock, the disk) are passed in as explicit
parameters or boolean failure flags.
-/

/-! ## Python primitives used by `pdf_processor.preprocess_text` -/

/-- Python whitespace test for the ASCII characters produced by the
pipeline (`str.strip`, regex `\s`). -/
def pyIsSpace (c : Char) : Bool :=
  c == ' ' || c == '\t' || c == '\n' || c == '\r' ||
    c == Char.ofNat 11 || c == Char.ofNat 12

/-- Python `str.lstrip()` (whitespace). -/
def pyLStrip (t : List Char) : List Char := t.dropWhile pyIsSpace

/-- Python `str.rstrip()` (whitespace). -/
def pyRStrip (t : List Char) : List Char :=
  (t.reverse.dropWhile pyIsSpace).reverse

/-- Python `str.strip()` (whitespace). -/
def pyStrip (t : List Char) : List Char := pyRStrip (pyLStrip t)

/-- One step of `re.sub(r'\s+', ' ', text)`: the boolean records whether
the previous character belonged to a whitespace run. -/
def collapseWsAux : Bool → List Char → List Char
  | _, [] => []
  | prevSpace, c :: rest =>
    if pyIsSpace c then
      if prevSpace then collapseWsAux true rest
      else ' ' :: collapseWsAux true rest
    else c :: collapseWsAux false rest

/-- `re.sub(r'\s+', ' ', text)` — collapse every maximal whitespace run
into a single space (`pdf_processor.py` line 59). -/
def collapseWs (t : List Char) : List Char := collapseWsAux false t

/-- Regex `\w` over the ASCII range: alphanumeric or underscore. -/
def pyIsWord (c : Char) : Bool := c.isAlphanum || c == '_'

/-- Characters kept by `re.sub(r'[^\w\s\.\,\!\?\;\:\-\(\)]', '', text)`
(`pdf_processor.py` line 62). -/
def keepChar (c : Char) : Bool :=
  pyIsWord c || pyIsSpace c || c == '.' || c == ',' || c == '!' ||
    c == '?' || c == ';' || c == ':' || c == '-' || c == '(' || c == ')'

/-- `re.sub(r'[^\w\s\.\,\!\?\;\:\-\(\)]', '', text)`. -/
def removeSpecial (t : List Char) : List Char := t.filter keepChar

/-- Python `text.split('\n')` (note `''.split('\n') == ['']`). -/
def splitNl : List Char → List (List Char)
  | [] => [[]]
  | c :: rest =>
    if c = '\n' then [] :: splitNl rest
    else
      match splitNl rest with
      | [] => [[c]]
      | l :: ls => (c :: l) :: ls

/-- Python `sep.join(lines)` for a one-character separator. -/
def pyJoin (sep : Char) : List (List Char) → List Char
  | [] => []
  | [x] => x
  | x :: xs => x ++ sep :: pyJoin sep xs

/-- `PDFProcessor.preprocess_text` (`pdf_processor.py` lines 48-76):
collapse whitespace, drop special characters, split into lines, strip
each line, keep only lines longer than 10 characters, rejoin with a
space, and strip the result. -/
def preprocessText (t : List Char) : List Char :=
  pyStrip (pyJoin ' '
    (((splitNl (removeSpecial (collapseWs t))).map pyStrip).filter
      (fun l => 10 < l.length)))

/-! ## `PDFProcessor.chunk_text` -/

/-- A text chunk (`pdf_processor.py` lines 111-117): the dict
`{'id', 'text', 'start_pos', 'end_pos', 'length'}`. -/
structure Chunk where
  id : Nat
  text : List Char
  start_pos : Nat
  end_pos : Nat
  length : Nat
deriving DecidableEq

instance : Inhabited Chunk := ⟨⟨0, [], 0, 0, 0⟩⟩

/-- Accumulator pass for Python `text.rfind(c, s, e)`: the greatest
index `i` with `s ≤ i < e` and `text[i] = c`, else `-1`. -/
def rfindAux (c : Char) (s e : Nat) : Nat → Int → List Char → Int
  | _, acc, [] => acc
  | i, acc, x :: xs =>
    rfindAux c s e (i + 1) (if s ≤ i ∧ i < e ∧ x = c then (i : Int) else acc) xs

/-- Python `text.rfind(c, s, e)`. -/
def pyRfind (t : List Char) (c : Char) (s e : Nat) : Int :=
  rfindAux c s e 0 (-1) t

/-- `max(last_period, last_exclamation, last_question)`
(`pdf_processor.py` line 103). -/
def sentenceEnd (t : List Char) (start e : Nat) : Int :=
  max (max (pyRfind t '.' start e) (pyRfind t '!' start e))
    (pyRfind t '?' start e)

/-- The `end` position chosen for the window starting at `start`
(`pdf_processor.py` lines 94-106): `min(start + chunk_size, len(text))`,
snapped to just after the last sentence terminator in the window when
that terminator lies beyond `start + chunk_size // 2`. -/
def computeEnd (cs : Nat) (t : List Char) (start : Nat) : Nat :=
  if min (start + cs) t.length < t.length then
    if ((start + cs / 2 : Nat) : Int) <
        sentenceEnd t start (min (start + cs) t.length) then
      (sentenceEnd t start (min (start + cs) t.length) + 1).toNat
    else min (start + cs) t.length
  else min (start + cs) t.length

/-- `start = max(start + self.chunk_size - self.overlap, end)`
(`pdf_processor.py` line 121). -/
def nextStart (cs o : Nat) (t : List Char) (start : Nat) : Nat :=
  max (start + cs - o) (computeEnd cs t start)

/-- The `while start < text_length` loop of `PDFProcessor.chunk_text`
(`pdf_processor.py` lines 93-121).  The extra conjunct `0 < cs` in the
guard makes the definition total; the Python loop does not terminate
when `chunk_size = 0`, and the repository always runs it with
`chunk_size = 500`, `overlap = 50`. -/
def chunkTextLoop (cs o : Nat) (t : List Char) (start cid : Nat) : List Chunk :=
  if h : 0 < cs ∧ start < t.length then
    if (pyStrip ((t.drop start).take (computeEnd cs t start - start))).isEmpty then
      chunkTextLoop cs o t (nextStart cs o t start) cid
    else
      ⟨cid, pyStrip ((t.drop start).take (computeEnd cs t start - start)),
        start, computeEnd cs t start,
        (pyStrip ((t.drop start).take (computeEnd cs t start - start))).length⟩ ::
        chunkTextLoop cs o t (nextStart cs o t start) (cid + 1)
  else []
termination_by t.length - start
decreasing_by
  all_goals
    have he : start < min (start + cs) t.length := lt_min (by omega) h.2
    have hce : start < computeEnd cs t start := by
      unfold computeEnd
      split
      · split
        · omega
        · exact he
      · exact he
    exact Nat.sub_lt_sub_left h.2
      (Nat.lt_of_lt_of_le hce (Nat.le_max_right _ _))

/-- `PDFProcessor.chunk_text` (`pdf_processor.py` lines 78-124). -/
def chunkText (cs o : Nat) (t : List Char) : List Chunk :=
  chunkTextLoop cs o t 0 0

/-! ## `SemanticSearchEngine` (`semantic_search.py`)

The FAISS index and the sentence-transformer embedder are external
binary collaborators.  Modelled from the spec: `IndexFlatIP.search`
"returns the top `k` by descending score" (§4.2) with "original chunk id
order (ascending) as the tie-break" (§4.4); when `k` exceeds the number
of stored vectors the remaining slots are padded with index `-1`
(`search` checks `idx != -1`).  The embedder is abstracted into a score
oracle `score : Nat → ℚ` giving the query's similarity against each
stored vector. -/

/-- A search hit (`semantic_search.py` lines 130-135): a copy of the
stored chunk plus `similarity_score` and `rank`. -/
structure RankedChunk where
  chunk : Chunk
  similarity_score : ℚ
  rank : Nat
deriving DecidableEq

/-- Candidate ordering used by the modelled FAISS top-`k`: descending
score, ties by ascending stored index. -/
def scoreOrder (a b : ℚ × Int) : Prop :=
  b.1 < a.1 ∨ (a.1 = b.1 ∧ a.2 ≤ b.2)

instance : DecidableRel scoreOrder := fun a b =>
  inferInstanceAs (Decidable (_ ∨ _))

instance : IsTotal (ℚ × Int) scoreOrder where
  total a b := by
    rcases lt_trichotomy a.1 b.1 with h | h | h
    · exact Or.inr (Or.inl h)
    · rcases le_total a.2 b.2 with h2 | h2
      · exact Or.inl (Or.inr ⟨h, h2⟩)
      · exact Or.inr (Or.inr ⟨h.symm, h2⟩)
    · exact Or.inl (Or.inl h)

instance : IsTrans (ℚ × Int) scoreOrder where
  trans a b c hab hbc := by
    rcases hab with h | ⟨he, hi⟩ <;> rcases hbc with h2 | ⟨he2, hi2⟩
    · exact Or.inl (lt_trans h2 h)
    · exact Or.inl (he2 ▸ h)
    · exact Or.inl (he ▸ h2)
    · exact Or.inr ⟨he.trans he2, le_trans hi hi2⟩

/-- Modelled from the spec: `faiss.IndexFlatIP.search` over `n` stored
vectors — exact inner-product top-`k`, descending score with ascending
index as tie-break, padded to `k` rows with index `-1` when `k > n`. -/
def faissTopK (n : Nat) (score : Nat → ℚ) (k : Nat) : List (ℚ × Int) :=
  (List.insertionSort scoreOrder
      ((List.range n).map fun i => (score i, (i : Int)))).take k ++
    List.replicate (k - n) (0, -1)

/-- The filter applied to each raw candidate (`semantic_search.py`
line 131): `idx != -1 and score >= score_threshold`. -/
def keepHit (thr : ℚ) (e : ℚ × Int) : Prop := e.2 ≠ -1 ∧ thr ≤ e.1

instance (thr : ℚ) : DecidablePred (keepHit thr) := fun e =>
  inferInstanceAs (Decidable (_ ∧ _))

/-- The `for i, (score, idx) in enumerate(...)` loop of
`SemanticSearchEngine.search` (`semantic_search.py` lines 129-135);
`i` is the position in the raw FAISS output and `rank = i + 1`. -/
def searchLoop (chunks : List Chunk) (thr : ℚ) : Nat → List (ℚ × Int) → List RankedChunk
  | _, [] => []
  | i, (s, idx) :: rest =>
    if keepHit thr (s, idx) then
      ⟨chunks.getD idx.toNat default, s, i + 1⟩ :: searchLoop chunks thr (i + 1) rest
    else searchLoop chunks thr (i + 1) rest

/-- `SemanticSearchEngine.search` (`semantic_search.py` lines 106-142):
empty index gives `[]`; otherwise filter the raw top-`k` by
`idx != -1 and score >= score_threshold`, carrying `rank = i + 1`. -/
def engineSearch (chunks : List Chunk) (score : Nat → ℚ) (k : Nat) (thr : ℚ) :
    List RankedChunk :=
  if chunks.length = 0 then []
  else searchLoop chunks thr 0 (faissTopK chunks.length score k)

/-- A chunk returned by `get_context_window`: a copy of the stored chunk
plus the `is_context` flag (`semantic_search.py` lines 230-234). -/
structure CtxChunk where
  chunk : Chunk
  is_context : Bool
deriving DecidableEq

/-- The `expanded_ids` set built by `get_context_window`
(`semantic_search.py` lines 218-227): for every hit, its own id plus
`range(max(0, id - w), min(n, id + w + 1))`. -/
def expandedIds (n w : Nat) (hits : List RankedChunk) : Finset ℕ :=
  hits.foldl
    (fun s h =>
      insert h.chunk.id
        (s ∪ Finset.Ico (h.chunk.id - w) (min n (h.chunk.id + w + 1))))
    ∅

/-- `SemanticSearchEngine.get_context_window`
(`semantic_search.py` lines 200-236). -/
def getContextWindow (engineChunks : List Chunk) (hits : List RankedChunk)
    (w : Nat) : List CtxChunk :=
  if hits.isEmpty then []
  else
    ((expandedIds engineChunks.length w hits).sort (· ≤ ·)).map fun cid =>
      ⟨engineChunks.getD cid default,
        decide (cid ∉ hits.map fun h => h.chunk.id)⟩

/-! ## `DocumentStore` (`semantic_search.py` lines 249-324)

Disk persistence (`save_index`) and the embedding build are external;
their possible failures are passed in as boolean flags.  A raised Python
exception is modelled as a `true` first component of the result — the
mutations already performed on the store survive it, exactly as the
mutations to `self.documents` survive a raise in the Python object. -/

/-- One entry of `DocumentStore.documents`. -/
structure StoreEntry where
  chunks : List Chunk
  metadata : String
  created_at : Nat
deriving DecidableEq

/-- `DocumentStore.documents`: an insertion-ordered dict. -/
abbrev Store := List (String × StoreEntry)

/-- Python dict assignment `documents[doc_id] = entry`: overwrite in
place if the key exists, else append. -/
def storeInsert (store : Store) (d : String) (e : StoreEntry) : Store :=
  if d ∈ store.map Prod.fst then
    store.map fun p => if p.1 = d then (d, e) else p
  else store ++ [(d, e)]

/-- One row of `DocumentStore.get_document_list`
(`semantic_search.py` lines 316-322). -/
structure DocInfo where
  id : String
  metadata : String
  chunk_count : Nat
  created_at : Nat
deriving DecidableEq

/-- `DocumentStore.get_document_list` (`semantic_search.py`
lines 312-324). -/
def getDocumentList (store : Store) : List DocInfo :=
  store.map fun p => ⟨p.1, p.2.metadata, p.2.chunks.length, p.2.created_at⟩

/-- `DocumentStore.add_document` (`semantic_search.py` lines 260-291):
build the index (may fail), register the document, then persist to disk
(may fail).  Returns `(raised, store after the call)`. -/
def addDocument (store : Store) (docId : String) (chunks : List Chunk)
    (metadata : String) (now : Nat) (buildFails saveFails : Bool) :
    Bool × Store :=
  if buildFails then (true, store)
  else (saveFails, storeInsert store docId ⟨chunks, metadata, now⟩)

/-- `DocumentStore.search_document` (`semantic_search.py` lines
293-299): `[]` for an unknown id, else `engine.search(query, k)` with
the default threshold `0.3`.  The query's similarity against each
stored chunk of each document is supplied by the oracle `scoreOf`. -/
def searchDocument (store : Store) (scoreOf : String → Nat → ℚ)
    (docId : String) (k : Nat) : List RankedChunk :=
  match store.find? (fun p => p.1 = docId) with
  | none => []
  | some p => engineSearch p.2.chunks (scoreOf docId) k (mkRat 3 10)

/-! ## `LLMAnswerGenerator.generate_answer` source attachment
(`llm_integration.py` lines 233-239) -/

/-- One element of the `sources` list attached to an answer. -/
structure SourceInfo where
  chunk_id : Nat
  similarity_score : ℚ
  text_preview : List Char
deriving DecidableEq

/-- `'...'` appended to truncated previews. -/
def ellipsisDots : List Char := ['.', '.', '.']

/-- The `for chunk in context_chunks[:3]` loop of
`LLMAnswerGenerator.generate_answer` (`llm_integration.py` lines
233-239): top 3 chunks, preview equal to the full text when it has at
most 100 characters and to the first 100 characters followed by `'...'`
otherwise. -/
def attachSources (context_chunks : List RankedChunk) : List SourceInfo :=
  (context_chunks.take 3).map fun c =>
    ⟨c.chunk.id, c.similarity_score,
      if 100 < c.chunk.text.length then c.chunk.text.take 100 ++ ellipsisDots
      else c.chunk.text⟩

/-! ## `StudyMateQASystem` (`qa_system.py`)

The PDF extractor, the id-deriving hash, the answer generator and the
clock are external: the derived document id, the extracted chunks and
metadata, the generated answer and the timestamp are passed in as
parameters. -/

/-- One element of `self.conversation_history`
(`qa_system.py` lines 199-204). -/
structure ConvEntry where
  question : String
  answer : String
  timestamp : Nat
  document_id : String
deriving DecidableEq

/-- Session state of `StudyMateQASystem`: the owned `DocumentStore`,
`self.current_document` and `self.conversation_history`. -/
structure QAState where
  store : Store
  currentDocument : Option String
  conversationHistory : List ConvEntry
deriving DecidableEq

/-- Result dict of `ask_question`; on failure only `success` and
`message` are meaningful. -/
structure AskResult where
  success : Bool
  message : String
  answer : String
  sources : List SourceInfo
  context_chunks_used : Nat
deriving DecidableEq

/-- Document-id resolution at the top of `ask_question`
(`qa_system.py` lines 144-145): use the current document when none is
given. -/
def resolveDoc (documentId : Option String) (st : QAState) : Option String :=
  match documentId with
  | some d => some d
  | none => st.currentDocument

/-- `StudyMateQASystem.ask_question` (`qa_system.py` lines 129-216).
`genAnswer` is the external answer generator (its result is never a
hard failure here, matching the code's catch-and-degrade policy inside
`generate_answer`); `now` is the clock reading. -/
def askQuestion (genAnswer : String → List RankedChunk → String)
    (scoreOf : String → Nat → ℚ) (st : QAState) (question : String)
    (documentId : Option String) (k : Nat) (now : Nat) :
    AskResult × QAState :=
  match resolveDoc documentId st with
  | none =>
    (⟨false, "No document selected. Please upload a document first.", "", [], 0⟩, st)
  | some d =>
    match searchDocument st.store scoreOf d k with
    | [] =>
      (⟨false, "No relevant information found in the document.", "", [], 0⟩, st)
    | c :: cs =>
      (⟨true, "", genAnswer question (c :: cs), attachSources (c :: cs),
          (c :: cs).length⟩,
        { st with
          conversationHistory := st.conversationHistory ++
            [⟨question, genAnswer question (c :: cs), now, d⟩] })

/-- Result dict of `upload_document`. -/
structure UploadResult where
  success : Bool
  is_new : Bool
  message : String
deriving DecidableEq

/-- `StudyMateQASystem.upload_document` (`qa_system.py` lines 60-127)
for an already-derived document id: the already-present path selects the
document and returns `is_new = False` without touching the history; the
new path registers via `add_document` (whose partial mutations survive a
raise, which the surrounding `try` turns into a failure result), sets
the current document and clears the history. -/
def uploadDocument (st : QAState) (docId : String) (chunks : List Chunk)
    (metadata : String) (now : Nat) (buildFails saveFails : Bool) :
    UploadResult × QAState :=
  if (getDocumentList st.store).any (fun d => d.id = docId) then
    (⟨true, false, "Document already processed"⟩,
      { st with currentDocument := some docId })
  else
    if (addDocument st.store docId chunks metadata now buildFails saveFails).1 then
      (⟨false, false, "Failed to process document"⟩,
        { st with
          store := (addDocument st.store docId chunks metadata now buildFails saveFails).2 })
    else
      (⟨true, true, "Document processed successfully"⟩,
        { st with
          store := (addDocument st.store docId chunks metadata now buildFails saveFails).2,
          currentDocument := some docId,
          conversationHistory := [] })

/-- Result dict of `select_document`. -/
structure SelectResult where
  success : Bool
  message : String
deriving DecidableEq

/-- `StudyMateQASystem.select_document` (`qa_system.py` lines 322-357):
on success set the current document and clear the conversation
history. -/
def selectDocument (st : QAState) (docId : String) : SelectResult × QAState :=
  if (getDocumentList st.store).any (fun d => d.id = docId) then
    (⟨true, "Document selected successfully"⟩,
      { st with currentDocument := some docId, conversationHistory := [] })
  else (⟨false, "Document not found"⟩, st)

/-! ## Helper lemmas on Python string primitives -/

theorem dropWhile_dropWhile (p : Char → Bool) (l : List Char) :
    List.dropWhile p (List.dropWhile p l) = List.dropWhile p l := by
  induction l with
  | nil => rfl
  | cons c rest ih =>
    by_cases h : p c
    · simp [List.dropWhile_cons, h, ih]
    · simp [List.dropWhile_cons, h]

theorem dropWhile_length_le (p : Char → Bool) (l : List Char) :
    (List.dropWhile p l).length ≤ l.length := by
  induction l with
  | nil => exact Nat.le_refl _
  | cons c rest ih =>
    by_cases h : p c
    · simp only [List.dropWhile_cons, h, if_pos]
      exact Nat.le_succ_of_le ih
    · simp [List.dropWhile_cons, h]

theorem dropWhile_take (p : Char → Bool) (l : List Char) (m : Nat)
    (h : List.dropWhile p l = l) :
    List.dropWhile p (l.take m) = l.take m := by
  cases l with
  | nil => simp
  | cons c rest =>
    have hc : p c = false := by
      by_contra hcne
      have hp : p c = true := by simpa using hcne
      rw [List.dropWhile_cons, if_pos hp] at h
      have hlen := congrArg List.length h
      have := dropWhile_length_le p rest
      simp at hlen
      omega
    cases m with
    | zero => simp
    | succ m => simp [List.take_succ_cons, List.dropWhile_cons, hc]

theorem eq_take_of_append (l X u : List Char) (h : l ++ X = u) :
    l = u.take l.length := by
  subst h
  exact (List.take_left l X).symm

theorem pyRStrip_append (u : List Char) :
    pyRStrip u ++ (u.reverse.takeWhile pyIsSpace).reverse = u := by
  unfold pyRStrip
  rw [← List.reverse_append, List.takeWhile_append_dropWhile, List.reverse_reverse]

theorem pyRStrip_eq_take (u : List Char) :
    pyRStrip u = u.take (pyRStrip u).length :=
  eq_take_of_append _ _ _ (pyRStrip_append u)

theorem pyRStrip_pyRStrip (u : List Char) : pyRStrip (pyRStrip u) = pyRStrip u := by
  unfold pyRStrip
  rw [List.reverse_reverse, dropWhile_dropWhile]

theorem pyLStrip_pyLStrip (u : List Char) : pyLStrip (pyLStrip u) = pyLStrip u :=
  dropWhile_dropWhile pyIsSpace u

theorem pyLStrip_pyRStrip (u : List Char) (h : pyLStrip u = u) :
    pyLStrip (pyRStrip u) = pyRStrip u := by
  unfold pyLStrip at h ⊢
  rw [pyRStrip_eq_take u]
  exact dropWhile_take _ _ _ h

theorem pyStrip_idem (u : List Char) : pyStrip (pyStrip u) = pyStrip u := by
  unfold pyStrip
  rw [pyLStrip_pyRStrip (pyLStrip u) (pyLStrip_pyLStrip u), pyRStrip_pyRStrip]

theorem mem_collapseWsAux (c : Char) (t : List Char) :
    ∀ b : Bool, c ∈ collapseWsAux b t → c = ' ' ∨ pyIsSpace c = false := by
  induction t with
  | nil => intro b h; simp [collapseWsAux] at h
  | cons x rest ih =>
    intro b h
    by_cases hx : pyIsSpace x
    · cases b with
      | false =>
        simp only [collapseWsAux, hx, if_pos, if_neg, Bool.false_eq_true,
          ite_false, List.mem_cons] at h
        rcases h with h | h
        · exact Or.inl h
        · exact ih true h
      | true =>
        simp only [collapseWsAux, hx, if_pos, ite_true] at h
        exact ih true h
    · simp only [collapseWsAux, hx, if_neg, Bool.false_eq_true, ite_false,
        List.mem_cons] at h
      rcases h with h | h
      · subst h
        right
        simpa using hx
      · exact ih false h

theorem newline_not_mem_collapseWs (t : List Char) : '\n' ∉ collapseWs t := by
  intro h
  rcases mem_collapseWsAux '\n' t false h with h1 | h1
  · exact absurd h1 (by decide)
  · exact absurd h1 (by decide)

theorem splitNl_no_newline (l : List Char) (h : '\n' ∉ l) : splitNl l = [l] := by
  induction l with
  | nil => rfl
  | cons c rest ih =>
    have hc : ¬ c = '\n' := fun he => h (by rw [← he]; exact List.mem_cons_self c rest)
    have hrest : '\n' ∉ rest := fun hm => h (List.mem_cons_of_mem c hm)
    simp [splitNl, hc, ih hrest]

/-- **C9.** `preprocess_text` collapses all whitespace (newlines
included) into single spaces before the short-line filter, so the
filter sees a single line: the output is empty exactly when the
stripped collapsed cleaned text has length at most 10, and otherwise it
is that whole text — no interior line (e.g. a page number) is ever
removed separately. -/
theorem preprocessText_single_line (t : List Char) :
    (splitNl (removeSpecial (collapseWs t))).length = 1 ∧
    preprocessText t =
      if (pyStrip (removeSpecial (collapseWs t))).length ≤ 10 then []
      else pyStrip (removeSpecial (collapseWs t)) := by
  have hnl : '\n' ∉ removeSpecial (collapseWs t) := by
    intro hmem
    exact newline_not_mem_collapseWs t (List.mem_of_mem_filter hmem)
  have hsplit := splitNl_no_newline _ hnl
  refine ⟨by rw [hsplit]; rfl, ?_⟩
  unfold preprocessText
  rw [hsplit]
  simp only [List.map_cons, List.map_nil, List.filter_cons, List.filter_nil]
  by_cases h : 10 < (pyStrip (removeSpecial (collapseWs t))).length
  · rw [if_pos (show (decide (10 < (pyStrip (removeSpecial (collapseWs t))).length)) = true by
        simpa using h),
      if_neg (show ¬ (pyStrip (removeSpecial (collapseWs t))).length ≤ 10 by omega)]
    simp only [pyJoin]
    exact pyStrip_idem _
  · rw [if_neg (show ¬ (decide (10 < (pyStrip (removeSpecial (collapseWs t))).length)) = true by
        simpa using h),
      if_pos (show (pyStrip (removeSpecial (collapseWs t))).length ≤ 10 by omega)]
    rfl

/-- **C7 counterexample.** A context chunk whose text has 101
characters yields a source preview of length 103 (100 characters plus
`'...'`), refuting "every source's text preview is at most 100
characters long". -/
theorem attachSources_preview_gt_100 :
    ¬ (∀ s ∈ attachSources [⟨⟨0, List.replicate 101 'a', 0, 101, 101⟩, 1, 1⟩],
        s.text_preview.length ≤ 100) := by
  decide

/-- **C7 (amended).** `generate_answer` attaches at most the top 3
context chunks as cited sources, and every source's text preview is at
most 103 characters long: the full chunk text when it has at most 100
characters, otherwise its first 100 characters followed by `'...'`. -/
theorem attachSources_top3_preview_le_103 (context_chunks : List RankedChunk) :
    (attachSources context_chunks).length ≤ 3 ∧
    ((attachSources context_chunks).all
      (fun s => s.text_preview.length ≤ 103)) = true := by
  constructor
  · unfold attachSources
    rw [List.length_map]
    exact List.length_take_le 3 _
  · rw [List.all_eq_true]
    intro s hs
    rw [decide_eq_true_eq]
    unfold attachSources at hs
    obtain ⟨c, hc, hceq⟩ := List.mem_map.mp hs
    rw [← hceq]
    by_cases h : 100 < c.chunk.text.length
    · simp only [if_pos h, List.length_append, List.length_take, ellipsisDots]
      simp
    · simp only [if_neg h]
      omega

/-- **C5 counterexample.** `add_document` registers the document
*before* persisting the index: when only `save_index` fails, the call
raises and yet the document appears in every subsequent
`get_document_list`, refuting "no partial registration, whether the
failure occurs during index build or during persistence". -/
theorem addDocument_save_failure_registers :
    (addDocument [] "doc" [⟨0, ['a'], 0, 1, 1⟩] "" 0 false true).1 = true ∧
    "doc" ∈ (getDocumentList
        (addDocument [] "doc" [⟨0, ['a'], 0, 1, 1⟩] "" 0 false true).2).map
        DocInfo.id := by
  constructor
  · rfl
  · decide

/-- **C5 (amended).** If `add_document` fails during the index build,
the document does not appear in subsequent listings; but if the failure
occurs while persisting the built index to disk, the document has
already been registered and does appear in subsequent listings. -/
theorem addDocument_registration (store : Store) (docId : String)
    (chunks : List Chunk) (md : String) (now : Nat) (saveFails : Bool)
    (habs : docId ∉ store.map Prod.fst) :
    ((addDocument store docId chunks md now true saveFails).1 = true ∧
      docId ∉ (getDocumentList
        (addDocument store docId chunks md now true saveFails).2).map DocInfo.id) ∧
    ((addDocument store docId chunks md now false true).1 = true ∧
      docId ∈ (getDocumentList
        (addDocument store docId chunks md now false true).2).map DocInfo.id) := by
  have hids : ∀ s : Store, (getDocumentList s).map DocInfo.id = s.map Prod.fst := by
    intro s
    simp [getDocumentList, List.map_map]
  refine ⟨⟨rfl, ?_⟩, rfl, ?_⟩
  · show docId ∉ (getDocumentList store).map DocInfo.id
    rw [hids]
    exact habs
  · show docId ∈ (getDocumentList (storeInsert store docId ⟨chunks, md, now⟩)).map DocInfo.id
    rw [hids, storeInsert, if_neg habs]
    simp

theorem addDocument_registration_witness :
    ("doc" ∉ (([] : Store).map Prod.fst)) ∧
    (addDocument [] "doc" [⟨0, ['a'], 0, 1, 1⟩] "" 0 true false).1 = true :=
  ⟨by simp,
    (addDocument_registration [] "doc" [⟨0, ['a'], 0, 1, 1⟩] "" 0 false
      (by simp)).1.1⟩

/-- **C10.** Uploading a file whose derived id is already in the store
selects that document and reports `is_new = false` without touching the
conversation history, while a successful new-document upload and a
successful `select_document` both clear the history. -/
theorem uploadDocument_existing_preserves_history
    (st st2 st3 : QAState) (docId d2 d3 : String)
    (chunks c2 : List Chunk) (md m2 : String) (now n2 : Nat) (bF sF : Bool)
    (hpres : ((getDocumentList st.store).any fun d => d.id = docId) = true)
    (habs2 : ((getDocumentList st2.store).any fun d => d.id = d2) = false)
    (hpres3 : ((getDocumentList st3.store).any fun d => d.id = d3) = true) :
    (uploadDocument st docId chunks md now bF sF).1.success = true ∧
    (uploadDocument st docId chunks md now bF sF).1.is_new = false ∧
    (uploadDocument st docId chunks md now bF sF).2.currentDocument = some docId ∧
    (uploadDocument st docId chunks md now bF sF).2.conversationHistory =
      st.conversationHistory ∧
    (uploadDocument st2 d2 c2 m2 n2 false false).2.conversationHistory = [] ∧
    (selectDocument st3 d3).2.conversationHistory = [] := by
  refine ⟨?_, ?_, ?_, ?_, ?_, ?_⟩ <;>
    simp [uploadDocument, selectDocument, addDocument, hpres, habs2, hpres3]

theorem uploadDocument_existing_preserves_history_witness :
    (uploadDocument ⟨[("doc", ⟨[], "", 0⟩)], none, [⟨"q", "a", 0, "doc"⟩]⟩
      "doc" [] "" 0 false false).2.conversationHistory =
      [⟨"q", "a", 0, "doc"⟩] :=
  (uploadDocument_existing_preserves_history
    ⟨[("doc", ⟨[], "", 0⟩)], none, [⟨"q", "a", 0, "doc"⟩]⟩
    ⟨[], none, []⟩ ⟨[("doc", ⟨[], "", 0⟩)], none, []⟩
    "doc" "other" "doc" [] [] "" "" 0 0 false false
    (by decide) (by decide) (by decide)).2.2.2.1

/-- **C4.** `ask_question` fails without touching the session state
when no document id is given and no current document is set (the
no-document-selected outcome), and likewise when retrieval returns no
chunk at or above the score threshold (the no-relevant-context
outcome); in both cases the conversation history receives no entry. -/
theorem askQuestion_failure_paths
    (gen gen2 : String → List RankedChunk → String)
    (scoreOf scoreOf2 : String → Nat → ℚ) (st st2 : QAState)
    (q q2 : String) (documentId : Option String) (d2 : String)
    (k k2 now now2 : Nat)
    (hdoc : documentId = none) (hcur : st.currentDocument = none)
    (hempty : searchDocument st2.store scoreOf2 d2 k2 = []) :
    ((askQuestion gen scoreOf st q documentId k now).1.success = false ∧
      (askQuestion gen scoreOf st q documentId k now).1.message =
        "No document selected. Please upload a document first." ∧
      (askQuestion gen scoreOf st q documentId k now).2 = st) ∧
    ((askQuestion gen2 scoreOf2 st2 q2 (some d2) k2 now2).1.success = false ∧
      (askQuestion gen2 scoreOf2 st2 q2 (some d2) k2 now2).1.message =
        "No relevant information found in the document." ∧
      (askQuestion gen2 scoreOf2 st2 q2 (some d2) k2 now2).2 = st2) := by
  subst hdoc
  constructor
  · refine ⟨?_, ?_, ?_⟩ <;> simp [askQuestion, resolveDoc, hcur]
  · refine ⟨?_, ?_, ?_⟩ <;> simp [askQuestion, resolveDoc, hempty]

theorem askQuestion_failure_paths_witness :
    (askQuestion (fun _ _ => "") (fun _ _ => 0)
      ⟨[], none, []⟩ "q" none 5 0).1.success = false ∧
    (askQuestion (fun _ _ => "") (fun _ _ => 0)
      ⟨[("d", ⟨[⟨0, ['a'], 0, 1, 1⟩], "", 0⟩)], some "d", []⟩
      "q" (some "d") 5 0).1.success = false :=
  ⟨(askQuestion_failure_paths (fun _ _ => "") (fun _ _ => "")
      (fun _ _ => 0) (fun _ _ => 0) ⟨[], none, []⟩
      ⟨[("d", ⟨[⟨0, ['a'], 0, 1, 1⟩], "", 0⟩)], some "d", []⟩
      "q" "q" none "d" 5 5 0 0 rfl rfl (by decide)).1.1,
    (askQuestion_failure_paths (fun _ _ => "") (fun _ _ => "")
      (fun _ _ => 0) (fun _ _ => 0) ⟨[], none, []⟩
      ⟨[("d", ⟨[⟨0, ['a'], 0, 1, 1⟩], "", 0⟩)], some "d", []⟩
      "q" "q" none "d" 5 5 0 0 rfl rfl (by decide)).2.1⟩

/-! ## Helper lemmas on `engineSearch` -/

theorem searchLoop_score_ge (chunks : List Chunk) (thr : ℚ) :
    ∀ (l : List (ℚ × Int)) (i : Nat) (r : RankedChunk),
      r ∈ searchLoop chunks thr i l → thr ≤ r.similarity_score := by
  intro l
  induction l with
  | nil => intro i r h; simp [searchLoop] at h
  | cons e rest ih =>
    intro i r h
    obtain ⟨s, idx⟩ := e
    by_cases hk : keepHit thr (s, idx)
    · simp only [searchLoop, if_pos hk] at h
      rcases List.mem_cons.mp h with h1 | h1
      · rw [h1]
        exact hk.2
      · exact ih (i + 1) r h1
    · simp only [searchLoop, if_neg hk] at h
      exact ih (i + 1) r h

theorem mem_searchLoop (chunks : List Chunk) (thr : ℚ) :
    ∀ (l : List (ℚ × Int)) (i : Nat) (r : RankedChunk),
      r ∈ searchLoop chunks thr i l →
      ∃ e ∈ l, keepHit thr e ∧ r.chunk = chunks.getD e.2.toNat default ∧
        r.similarity_score = e.1 := by
  intro l
  induction l with
  | nil => intro i r h; simp [searchLoop] at h
  | cons e rest ih =>
    intro i r h
    obtain ⟨s, idx⟩ := e
    by_cases hk : keepHit thr (s, idx)
    · simp only [searchLoop, if_pos hk] at h
      rcases List.mem_cons.mp h with h1 | h1
      · exact ⟨(s, idx), List.mem_cons_self _ _, hk, by rw [h1], by rw [h1]⟩
      · obtain ⟨e2, he2, hp⟩ := ih (i + 1) r h1
        exact ⟨e2, List.mem_cons_of_mem _ he2, hp⟩
    · simp only [searchLoop, if_neg hk] at h
      obtain ⟨e2, he2, hp⟩ := ih (i + 1) r h
      exact ⟨e2, List.mem_cons_of_mem _ he2, hp⟩

theorem searchLoop_nil_of_none (chunks : List Chunk) (thr : ℚ) :
    ∀ (l : List (ℚ × Int)), (∀ e ∈ l, ¬ keepHit thr e) →
      ∀ i, searchLoop chunks thr i l = [] := by
  intro l
  induction l with
  | nil => intro _ i; rfl
  | cons e rest ih =>
    intro hall i
    obtain ⟨s, idx⟩ := e
    simp only [searchLoop, if_neg (hall (s, idx) (List.mem_cons_self _ _))]
    exact ih (fun e2 he2 => hall e2 (List.mem_cons_of_mem _ he2)) (i + 1)

theorem searchLoop_pairwise (chunks : List Chunk) (thr : ℚ)
    (S : RankedChunk → RankedChunk → Prop) :
    ∀ (l : List (ℚ × Int)),
      List.Pairwise (fun a b => keepHit thr a → keepHit thr b →
        ∀ i j : Nat, S ⟨chunks.getD a.2.toNat default, a.1, i⟩
          ⟨chunks.getD b.2.toNat default, b.1, j⟩) l →
      ∀ i, List.Pairwise S (searchLoop chunks thr i l) := by
  intro l hl
  induction hl with
  | nil => intro i; simp [searchLoop]
  | @cons a l2 hhead htail ih =>
    intro i
    obtain ⟨s, idx⟩ := a
    by_cases hk : keepHit thr (s, idx)
    · simp only [searchLoop, if_pos hk]
      constructor
      · intro r hr
        obtain ⟨e, he, hek, hchunk, hscore⟩ := mem_searchLoop chunks thr _ _ _ hr
        have hr2 : r = ⟨chunks.getD e.2.toNat default, e.1, r.rank⟩ := by
          cases r
          simp only at hchunk hscore
          rw [hchunk, hscore]
        rw [hr2]
        exact hhead e he hk hek (i + 1) r.rank
      · exact ih (i + 1)
    · simp only [searchLoop, if_neg hk]
      exact ih (i + 1)

theorem searchLoop_ranks (chunks : List Chunk) (thr : ℚ) :
    ∀ (l : List (ℚ × Int)),
      List.Pairwise (fun a b => ¬ keepHit thr a → ¬ keepHit thr b) l →
      ∀ i, (searchLoop chunks thr i l).map RankedChunk.rank =
        List.range' (i + 1) (searchLoop chunks thr i l).length := by
  intro l hl
  induction hl with
  | nil => intro i; simp [searchLoop]
  | @cons a l2 hhead htail ih =>
    intro i
    obtain ⟨s, idx⟩ := a
    by_cases hk : keepHit thr (s, idx)
    · simp only [searchLoop, if_pos hk, List.map_cons, List.length_cons]
      rw [ih (i + 1)]
      rfl
    · have hall : ∀ e ∈ l2, ¬ keepHit thr e := fun e he => hhead e he hk
      simp only [searchLoop, if_neg hk]
      rw [searchLoop_nil_of_none chunks thr l2 hall (i + 1)]
      rfl

theorem faissTopK_mem_form (n : Nat) (score : Nat → ℚ) (k : Nat) :
    ∀ x ∈ (List.insertionSort scoreOrder
        ((List.range n).map fun i => (score i, (i : Int)))).take k,
      ∃ i : Nat, i < n ∧ x = (score i, (i : Int)) := by
  intro x hx
  have hx2 := List.mem_of_mem_take hx
  rw [List.mem_insertionSort] at hx2
  obtain ⟨i, hi, hxe⟩ := List.mem_map.mp hx2
  exact ⟨i, List.mem_range.mp hi, hxe.symm⟩

theorem faissTopK_sorted_ne (n : Nat) (score : Nat → ℚ) (k : Nat) :
    List.Pairwise (fun a b => scoreOrder a b ∧ a.2 ≠ b.2)
      ((List.insertionSort scoreOrder
        ((List.range n).map fun i => (score i, (i : Int)))).take k) := by
  have hs := List.sorted_insertionSort scoreOrder
    ((List.range n).map fun i => (score i, (i : Int)))
  have hperm := List.perm_insertionSort scoreOrder
    ((List.range n).map fun i => (score i, (i : Int)))
  have h1 : (((List.range n).map fun i => (score i, (i : Int))).map Prod.snd).Nodup := by
    rw [List.map_map]
    have : (Prod.snd ∘ fun i : Nat => (score i, (i : Int))) = fun i : Nat => (i : Int) :=
      rfl
    rw [this]
    exact (List.nodup_range n).map (fun a b => Int.natCast_inj.mp)
  have h2 : ((List.insertionSort scoreOrder
      ((List.range n).map fun i => (score i, (i : Int)))).map Prod.snd).Nodup :=
    ((hperm.map Prod.snd).nodup_iff).mpr h1
  have h3 : List.Pairwise (fun a b : ℚ × Int => a.2 ≠ b.2)
      (List.insertionSort scoreOrder ((List.range n).map fun i => (score i, (i : Int)))) :=
    List.pairwise_map.mp h2
  exact List.Pairwise.sublist (List.take_sublist k _) (hs.and h3)

/-- **C2.** For every query (score oracle), every `k` and every
threshold, `SemanticSearchEngine.search` returns only results whose
similarity score is at least the threshold, and the returned sequence
is sorted by strictly descending score with ties broken by ascending
chunk id (assuming the stored chunks carry ascending ids, as the
chunker produces them). -/
theorem engineSearch_threshold_and_sorted (chunks : List Chunk)
    (score : Nat → ℚ) (k : Nat) (thr : ℚ)
    (hids : List.Pairwise (· < ·) (chunks.map Chunk.id)) :
    (∀ r ∈ engineSearch chunks score k thr, thr ≤ r.similarity_score) ∧
    List.Pairwise (fun a b =>
      b.similarity_score < a.similarity_score ∨
        (a.similarity_score = b.similarity_score ∧ a.chunk.id < b.chunk.id))
      (engineSearch chunks score k thr) := by
  by_cases hn : chunks.length = 0
  · simp [engineSearch, hn]
  · constructor
    · intro r hr
      rw [engineSearch, if_neg hn] at hr
      exact searchLoop_score_ge chunks thr _ _ _ hr
    · rw [engineSearch, if_neg hn]
      apply searchLoop_pairwise
      unfold faissTopK
      rw [List.pairwise_append]
      refine ⟨?_, ?_, ?_⟩
      · refine List.Pairwise.imp_of_mem ?_
          (faissTopK_sorted_ne chunks.length score k)
        intro a b ha hb hrel hka hkb i j
        obtain ⟨ia, hia, hae⟩ := faissTopK_mem_form chunks.length score k a ha
        obtain ⟨ib, hib, hbe⟩ := faissTopK_mem_form chunks.length score k b hb
        rcases hrel.1 with hlt | ⟨heq, hle⟩
        · exact Or.inl hlt
        · refine Or.inr ⟨heq, ?_⟩
          have hlt2 : a.2 < b.2 := lt_of_le_of_ne hle hrel.2
          rw [hae, hbe] at hlt2
          simp only at hlt2
          have hij : ia < ib := by exact_mod_cast hlt2
          show (chunks.getD a.2.toNat default).id < (chunks.getD b.2.toNat default).id
          rw [hae, hbe]
          simp only [Int.toNat_natCast]
          rw [List.getD_eq_getElem chunks default hia,
            List.getD_eq_getElem chunks default hib]
          have hmap := List.pairwise_iff_getElem.mp hids ia ib
            (by simpa using hia) (by simpa using hib) hij
          rw [List.getElem_map, List.getElem_map] at hmap
          exact hmap
      · rw [List.pairwise_replicate]
        exact Or.inr (fun hka _ _ _ => absurd rfl hka.1)
      · intro a _ b hb hka hkb i j
        rw [List.eq_of_mem_replicate hb] at hkb
        exact absurd rfl hkb.1

theorem engineSearch_threshold_and_sorted_witness :
    List.Pairwise (· < ·)
      (([⟨0, ['x'], 0, 1, 1⟩, ⟨1, ['y'], 1, 2, 1⟩] : List Chunk).map Chunk.id) ∧
    List.Pairwise (fun a b =>
      b.similarity_score < a.similarity_score ∨
        (a.similarity_score = b.similarity_score ∧ a.chunk.id < b.chunk.id))
      (engineSearch [⟨0, ['x'], 0, 1, 1⟩, ⟨1, ['y'], 1, 2, 1⟩]
        (fun _ => 1) 5 0) :=
  ⟨by decide,
    (engineSearch_threshold_and_sorted
      [⟨0, ['x'], 0, 1, 1⟩, ⟨1, ['y'], 1, 2, 1⟩] (fun _ => 1) 5 0
      (by decide)).2⟩

/-- **C3.** The `rank` field of returned search results is 1-based and
consecutive over the returned set: because the raw FAISS candidates are
sorted by descending score with the `-1` padding entries at the end,
every filtered-out candidate lies after every kept one, so the kept
results always form a prefix of the raw candidate list. -/
theorem engineSearch_ranks_consecutive (chunks : List Chunk)
    (score : Nat → ℚ) (k : Nat) (thr : ℚ) :
    (engineSearch chunks score k thr).map RankedChunk.rank =
      List.range' 1 (engineSearch chunks score k thr).length := by
  by_cases hn : chunks.length = 0
  · simp [engineSearch, hn]
  · rw [engineSearch, if_neg hn]
    have hP : List.Pairwise (fun a b => ¬ keepHit thr a → ¬ keepHit thr b)
        (faissTopK chunks.length score k) := by
      unfold faissTopK
      rw [List.pairwise_append]
      refine ⟨?_, ?_, ?_⟩
      · refine List.Pairwise.imp_of_mem ?_
          (faissTopK_sorted_ne chunks.length score k)
        intro a b ha hb hrel hna hkb
        obtain ⟨ia, hia, hae⟩ := faissTopK_mem_form chunks.length score k a ha
        have hba : b.1 ≤ a.1 := by
          rcases hrel.1 with h | ⟨he, _⟩
          · exact le_of_lt h
          · exact le_of_eq he.symm
        apply hna
        constructor
        · rw [hae]
          simp only
          omega
        · exact le_trans hkb.2 hba
      · rw [List.pairwise_replicate]
        exact Or.inr (fun _ hkb => absurd rfl hkb.1)
      · intro a _ b hb _ hkb
        rw [List.eq_of_mem_replicate hb] at hkb
        exact absurd rfl hkb.1
    exact searchLoop_ranks chunks thr _ hP 0

/-! ## Helper lemmas on `getContextWindow` -/

theorem mem_expandedIds_fold (n w : Nat) :
    ∀ (l : List RankedChunk) (s : Finset ℕ) (c : Nat),
      (c ∈ l.foldl (fun s h => insert h.chunk.id
        (s ∪ Finset.Ico (h.chunk.id - w) (min n (h.chunk.id + w + 1)))) s) ↔
      (c ∈ s ∨ ∃ h ∈ l, c = h.chunk.id ∨
        (h.chunk.id - w ≤ c ∧ c < min n (h.chunk.id + w + 1))) := by
  intro l
  induction l with
  | nil => intro s c; simp
  | cons hd tl ih =>
    intro s c
    rw [List.foldl_cons, ih]
    constructor
    · rintro (hs | hex)
      · rw [Finset.mem_insert, Finset.mem_union, Finset.mem_Ico] at hs
        rcases hs with h1 | h1 | h1
        · exact Or.inr ⟨hd, List.mem_cons_self _ _, Or.inl h1⟩
        · exact Or.inl h1
        · exact Or.inr ⟨hd, List.mem_cons_self _ _, Or.inr h1⟩
      · obtain ⟨h2, hh2, hp⟩ := hex
        exact Or.inr ⟨h2, List.mem_cons_of_mem _ hh2, hp⟩
    · rintro (hs | ⟨h2, hh2, hp⟩)
      · exact Or.inl (Finset.mem_insert_of_mem (Finset.mem_union_left _ hs))
      · rcases List.mem_cons.mp hh2 with he | he
        · subst he
          rcases hp with hp | hp
          · exact Or.inl (hp ▸ Finset.mem_insert_self _ _)
          · exact Or.inl (Finset.mem_insert_of_mem
              (Finset.mem_union_right _ (Finset.mem_Ico.mpr hp)))
        · exact Or.inr ⟨h2, he, hp⟩

theorem mem_expandedIds (n w : Nat) (hits : List RankedChunk) (c : Nat) :
    c ∈ expandedIds n w hits ↔
      ∃ h ∈ hits, c = h.chunk.id ∨
        (h.chunk.id - w ≤ c ∧ c < min n (h.chunk.id + w + 1)) := by
  rw [expandedIds, mem_expandedIds_fold]
  simp

/-- **C6.** For every non-empty list of valid hits and every window
size, `get_context_window` returns chunks whose ids are strictly
ascending (hence duplicate-free), form a superset of the hit ids,
comprise exactly the ids within distance `w` of some hit id clamped to
the valid range, and carry `is_context = true` exactly when the id was
not among the original hits (assuming the engine stores the chunker's
densely-numbered chunks). -/
theorem getContextWindow_spec (engineChunks : List Chunk)
    (hits : List RankedChunk) (w : Nat)
    (hne : hits ≠ [])
    (hvalid : ∀ h ∈ hits, h.chunk.id < engineChunks.length)
    (hdense : engineChunks.map Chunk.id = List.range engineChunks.length) :
    List.Pairwise (· < ·)
      ((getContextWindow engineChunks hits w).map fun o => o.chunk.id) ∧
    (∀ h ∈ hits, h.chunk.id ∈
      (getContextWindow engineChunks hits w).map fun o => o.chunk.id) ∧
    (∀ c : Nat, (c ∈ (getContextWindow engineChunks hits w).map
        fun o => o.chunk.id) ↔
      (c < engineChunks.length ∧
        ∃ h ∈ hits, h.chunk.id - w ≤ c ∧ c ≤ h.chunk.id + w)) ∧
    (∀ o ∈ getContextWindow engineChunks hits w,
      o.is_context = true ↔ o.chunk.id ∉ hits.map fun h => h.chunk.id) := by
  have hIsE : hits.isEmpty = false := by
    cases hits with
    | nil => exact absurd rfl hne
    | cons a l => rfl
  have hout : getContextWindow engineChunks hits w =
      ((expandedIds engineChunks.length w hits).sort (· ≤ ·)).map (fun cid =>
        ⟨engineChunks.getD cid default,
          decide (cid ∉ hits.map fun h => h.chunk.id)⟩) := by
    rw [getContextWindow, if_neg (by simp [hIsE])]
  have hchar : ∀ c : Nat, c ∈ expandedIds engineChunks.length w hits ↔
      (c < engineChunks.length ∧
        ∃ h ∈ hits, h.chunk.id - w ≤ c ∧ c ≤ h.chunk.id + w) := by
    intro c
    rw [mem_expandedIds]
    constructor
    · rintro ⟨h, hh, hp | hp⟩
      · have hv := hvalid h hh
        subst hp
        exact ⟨hv, h, hh, by omega, by omega⟩
      · obtain ⟨hc1, hc2⟩ := lt_min_iff.mp hp.2
        exact ⟨hc1, h, hh, hp.1, by omega⟩
    · rintro ⟨hcn, h, hh, h1, h2⟩
      exact ⟨h, hh, Or.inr ⟨h1, lt_min_iff.mpr ⟨hcn, by omega⟩⟩⟩
  have hvalidmem : ∀ c ∈ (expandedIds engineChunks.length w hits).sort (· ≤ ·),
      c < engineChunks.length :=
    fun c hc => ((hchar c).mp ((Finset.mem_sort _).mp hc)).1
  have hgetid : ∀ c, c < engineChunks.length →
      (engineChunks.getD c default).id = c := by
    intro c hc
    rw [List.getD_eq_getElem engineChunks default hc]
    have hcm : c < (engineChunks.map Chunk.id).length := by simpa using hc
    have h2 := List.getElem_of_eq hdense hcm
    rw [List.getElem_map] at h2
    rw [List.getElem_range] at h2
    exact h2
  have hmapid : ((getContextWindow engineChunks hits w).map fun o => o.chunk.id) =
      (expandedIds engineChunks.length w hits).sort (· ≤ ·) := by
    rw [hout, List.map_map]
    have hcg : ∀ c ∈ (expandedIds engineChunks.length w hits).sort (· ≤ ·),
        ((fun o : CtxChunk => o.chunk.id) ∘ (fun cid =>
          (⟨engineChunks.getD cid default,
            decide (cid ∉ hits.map fun h => h.chunk.id)⟩ : CtxChunk))) c = id c :=
      fun c hc => hgetid c (hvalidmem c hc)
    rw [List.map_congr_left hcg, List.map_id]
  refine ⟨?_, ?_, ?_, ?_⟩
  · rw [hmapid]
    exact Finset.sort_sorted_lt _
  · intro h hh
    rw [hmapid, Finset.mem_sort]
    exact (hchar _).mpr ⟨hvalid h hh, h, hh, by omega, by omega⟩
  · intro c
    rw [hmapid, Finset.mem_sort]
    exact hchar c
  · intro o ho
    rw [hout] at ho
    obtain ⟨cid, hcid, heq⟩ := List.mem_map.mp ho
    rw [← heq]
    simp only
    rw [hgetid cid (hvalidmem cid hcid), decide_eq_true_eq]

theorem getContextWindow_spec_witness :
    (([⟨⟨1, ['y'], 1, 2, 1⟩, 1, 1⟩] : List RankedChunk) ≠ []) ∧
    List.Pairwise (· < ·)
      ((getContextWindow [⟨0, ['x'], 0, 1, 1⟩, ⟨1, ['y'], 1, 2, 1⟩, ⟨2, ['z'], 2, 3, 1⟩]
        [⟨⟨1, ['y'], 1, 2, 1⟩, 1, 1⟩] 1).map fun o => o.chunk.id) :=
  ⟨by decide,
    (getContextWindow_spec
      [⟨0, ['x'], 0, 1, 1⟩, ⟨1, ['y'], 1, 2, 1⟩, ⟨2, ['z'], 2, 3, 1⟩]
      [⟨⟨1, ['y'], 1, 2, 1⟩, 1, 1⟩] 1
      (by decide) (by decide) (by decide)).1⟩

/-! ## Helper lemmas on `chunk_text` -/

theorem rfindAux_not_mem (c : Char) (s e : Nat) :
    ∀ (t : List Char) (i : Nat) (acc : Int), c ∉ t →
      rfindAux c s e i acc t = acc := by
  intro t
  induction t with
  | nil => intro i acc _; rfl
  | cons x xs ih =>
    intro i acc hmem
    have hx : ¬ x = c := fun he => hmem (he ▸ List.mem_cons_self x xs)
    simp only [rfindAux]
    rw [if_neg (fun hcond => hx hcond.2.2)]
    exact ih (i + 1) acc (fun hm => hmem (List.mem_cons_of_mem _ hm))

theorem pyRfind_not_mem (t : List Char) (c : Char) (s e : Nat) (h : c ∉ t) :
    pyRfind t c s e = -1 :=
  rfindAux_not_mem c s e t 0 (-1) h

theorem sentenceEnd_not_mem (t : List Char) (start e : Nat)
    (hd : '.' ∉ t) (hb : '!' ∉ t) (hq : '?' ∉ t) :
    sentenceEnd t start e = -1 := by
  rw [sentenceEnd, pyRfind_not_mem t '.' start e hd,
    pyRfind_not_mem t '!' start e hb, pyRfind_not_mem t '?' start e hq]
  decide

theorem computeEnd_not_mem (cs : Nat) (t : List Char) (start : Nat)
    (hd : '.' ∉ t) (hb : '!' ∉ t) (hq : '?' ∉ t) :
    computeEnd cs t start = min (start + cs) t.length := by
  rw [computeEnd,
    sentenceEnd_not_mem t start (min (start + cs) t.length) hd hb hq]
  rw [if_neg (show ¬ ((start + cs / 2 : Nat) : Int) < -1 by omega)]
  rw [ite_self]

theorem dropWhile_all_false (p : Char → Bool) (l : List Char)
    (h : ∀ c ∈ l, p c = false) : List.dropWhile p l = l := by
  cases l with
  | nil => rfl
  | cons x xs =>
    rw [List.dropWhile_cons, if_neg (by simp [h x (List.mem_cons_self x xs)])]

theorem pyStrip_no_space (t : List Char) (h : ∀ c ∈ t, pyIsSpace c = false) :
    pyStrip t = t := by
  unfold pyStrip pyLStrip pyRStrip
  rw [dropWhile_all_false pyIsSpace t h,
    dropWhile_all_false pyIsSpace t.reverse
      (fun c hc => h c (List.mem_reverse.mp hc))]
  exact List.reverse_reverse t

theorem isEmpty_false_of_length (l : List Char) (n : Nat) (hl : l.length = n)
    (hn : n ≠ 0) : l.isEmpty = false := by
  cases l with
  | nil =>
    rw [List.length_nil] at hl
    exact absurd hl.symm hn
  | cons x xs => rfl

theorem chunkText_flat_1200 (t : List Char) (hlen : t.length = 1200)
    (hd : '.' ∉ t) (hb : '!' ∉ t) (hq : '?' ∉ t)
    (hsp : ∀ c ∈ t, pyIsSpace c = false) :
    (chunkText 500 50 t).map Chunk.start_pos = [0, 500, 1000] ∧
    (chunkText 500 50 t).map Chunk.length = [500, 500, 200] := by
  have hslice : ∀ a b : Nat, pyStrip ((t.drop a).take b) = (t.drop a).take b :=
    fun a b => pyStrip_no_space _ (fun c hc =>
      hsp c (List.mem_of_mem_drop (List.mem_of_mem_take hc)))
  have hCE : ∀ start : Nat, computeEnd 500 t start = min (start + 500) 1200 := by
    intro start
    rw [computeEnd_not_mem 500 t start hd hb hq, hlen]
  have e0 : computeEnd 500 t 0 = 500 := by rw [hCE]; omega
  have e1 : computeEnd 500 t 500 = 1000 := by rw [hCE]; omega
  have e2 : computeEnd 500 t 1000 = 1200 := by rw [hCE]; omega
  have n0 : nextStart 500 50 t 0 = 500 := by rw [nextStart, e0]; omega
  have n1 : nextStart 500 50 t 500 = 1000 := by rw [nextStart, e1]; omega
  have n2 : nextStart 500 50 t 1000 = 1450 := by rw [nextStart, e2]; omega
  have s0 : pyStrip ((t.drop 0).take (computeEnd 500 t 0 - 0)) =
      (t.drop 0).take 500 := by
    rw [e0]
    exact hslice 0 500
  have s1 : pyStrip ((t.drop 500).take (computeEnd 500 t 500 - 500)) =
      (t.drop 500).take 500 := by
    rw [e1]
    exact hslice 500 500
  have s2 : pyStrip ((t.drop 1000).take (computeEnd 500 t 1000 - 1000)) =
      (t.drop 1000).take 200 := by
    rw [e2]
    exact hslice 1000 200
  have l0 : ((t.drop 0).take 500).length = 500 := by
    simp [List.length_take, List.length_drop, hlen]
  have l1 : ((t.drop 500).take 500).length = 500 := by
    simp [List.length_take, List.length_drop, hlen]
  have l2 : ((t.drop 1000).take 200).length = 200 := by
    simp [List.length_take, List.length_drop, hlen]
  rw [chunkText]
  rw [chunkTextLoop,
    dif_pos (⟨by norm_num, by rw [hlen]; norm_num⟩ :
      (0 : Nat) < 500 ∧ 0 < t.length),
    s0, if_neg (by rw [isEmpty_false_of_length _ 500 l0 (by norm_num)]; simp),
    e0, n0, l0]
  rw [chunkTextLoop,
    dif_pos (⟨by norm_num, by rw [hlen]; norm_num⟩ :
      (0 : Nat) < 500 ∧ 500 < t.length),
    s1, if_neg (by rw [isEmpty_false_of_length _ 500 l1 (by norm_num)]; simp),
    e1, n1, l1]
  rw [chunkTextLoop,
    dif_pos (⟨by norm_num, by rw [hlen]; norm_num⟩ :
      (0 : Nat) < 500 ∧ 1000 < t.length),
    s2, if_neg (by rw [isEmpty_false_of_length _ 200 l2 (by norm_num)]; simp),
    e2, n2, l2]
  rw [chunkTextLoop, dif_neg (by rw [hlen]; omega)]
  constructor <;> rfl

/-- **C1 (amended).** For an input text of exactly 1200 characters
containing no sentence terminator and no whitespace, `chunk_text` with
`L = 500`, `O = 50` produces exactly 3 chunks with start positions
`0, 500, 1000` and lengths `500, 500, 200`: since the advance rule is
`start = max(start + L - O, end)` and an unsnapped window has
`end = start + L > start + L - O`, consecutive raw windows do not
overlap at all. -/
theorem chunkText_1200_no_terminators (t : List Char) (hlen : t.length = 1200)
    (hd : '.' ∉ t) (hb : '!' ∉ t) (hq : '?' ∉ t)
    (hsp : ∀ c ∈ t, pyIsSpace c = false) :
    (chunkText 500 50 t).length = 3 ∧
    (chunkText 500 50 t).map Chunk.start_pos = [0, 500, 1000] ∧
    (chunkText 500 50 t).map Chunk.length = [500, 500, 200] := by
  obtain ⟨h1, h2⟩ := chunkText_flat_1200 t hlen hd hb hq hsp
  refine ⟨?_, h1, h2⟩
  have h3 := congrArg List.length h1
  rw [List.length_map] at h3
  simpa using h3

/-- **C1 counterexample.** On the 1200-character terminator-free text
`'a' * 1200`, `chunk_text` with `L = 500`, `O = 50` does *not* produce
chunks at starts `0, 450, 900` with lengths `500, 500, 300`: it
produces starts `0, 500, 1000` and lengths `500, 500, 200`. -/
theorem chunkText_1200_counterexample :
    ¬ ((chunkText 500 50 (List.replicate 1200 'a')).map Chunk.start_pos =
        [0, 450, 900] ∧
      (chunkText 500 50 (List.replicate 1200 'a')).map Chunk.length =
        [500, 500, 300]) := by
  intro hc
  have h := (chunkText_flat_1200 (List.replicate 1200 'a')
    (List.length_replicate 1200 'a')
    (by intro hm; rw [List.mem_replicate] at hm; exact absurd hm.2 (by decide))
    (by intro hm; rw [List.mem_replicate] at hm; exact absurd hm.2 (by decide))
    (by intro hm; rw [List.mem_replicate] at hm; exact absurd hm.2 (by decide))
    (by intro c hc2; rw [List.eq_of_mem_replicate hc2]; decide)).1
  rw [hc.1] at h
  simp at h

theorem chunkText_1200_witness :
    (chunkText 500 50 (List.replicate 1200 'a')).length = 3 :=
  (chunkText_1200_no_terminators (List.replicate 1200 'a')
    (List.length_replicate 1200 'a')
    (by intro hm; rw [List.mem_replicate] at hm; exact absurd hm.2 (by decide))
    (by intro hm; rw [List.mem_replicate] at hm; exact absurd hm.2 (by decide))
    (by intro hm; rw [List.mem_replicate] at hm; exact absurd hm.2 (by decide))
    (by intro c hc2; rw [List.eq_of_mem_replicate hc2]; decide)).1

theorem chunkTextLoop_length_le (cs o : Nat) (t : List Char) :
    ∀ (n start cid : Nat), t.length - start ≤ n →
      (chunkTextLoop cs o t start cid).length ≤ t.length - start := by
  intro n
  induction n with
  | zero =>
    intro start cid h0
    rw [chunkTextLoop, dif_neg (by omega)]
    simp
  | succ m ih =>
    intro start cid hle
    by_cases hg : 0 < cs ∧ start < t.length
    · have he : start < min (start + cs) t.length := lt_min (by omega) hg.2
      have hce : start < computeEnd cs t start := by
        rw [computeEnd]
        split
        · split
          · omega
          · exact he
        · exact he
      have hns : start < nextStart cs o t start :=
        Nat.lt_of_lt_of_le hce (Nat.le_max_right _ _)
      rw [chunkTextLoop, dif_pos hg]
      split
      · have hr := ih (nextStart cs o t start) cid (by omega)
        omega
      · simp only [List.length_cons]
        have hr := ih (nextStart cs o t start) (cid + 1) (by omega)
        omega
    · rw [chunkTextLoop, dif_neg hg]
      simp

/-- **C8.** `chunk_text` makes forward progress and terminates: when
`overlap < chunk_size` the next start position is at least
`start + (chunk_size - overlap)` (450 with the defaults), and on every
input the loop emits at most `len(text)` chunks — the embedded loop is
a total function. -/
theorem chunkText_progress (cs o : Nat) (t : List Char) (start : Nat)
    (h : o < cs) :
    start + (cs - o) ≤ nextStart cs o t start ∧
    (chunkText cs o t).length ≤ t.length := by
  constructor
  · have hle := Nat.le_max_left (start + cs - o) (computeEnd cs t start)
    rw [nextStart]
    omega
  · have hb := chunkTextLoop_length_le cs o t t.length 0 0 (by omega)
    rw [chunkText]
    omega

theorem chunkText_progress_witness :
    0 + (500 - 50) ≤ nextStart 500 50 ['a'] 0 ∧
    (chunkText 500 50 ['a']).length ≤ (['a'] : List Char).length :=
  chunkText_progress 500 50 ['a'] 0 (by decide)
